import Mathlib

/-!
Shallow embedding of the core logic of the catching_puppy repository
(`src/src/App.jsx`, with the earlier variant in `src/unnamed/part_000`).

Modelling conventions:
* JavaScript numbers are modelled as `Int`.  Every number the core logic
  manipulates is integral, so `Math.floor` is the identity and is dropped.
* A JavaScript number that may be `NaN`/non-finite (the `Number.isFinite`
  guards in `clampStage`, `clampScore` and `sanitizeLeaderboard`) is
  modelled as `Option Int`, with `none` standing for a non-finite value.
* `Array.prototype.sort` with a comparator is stable and sorts by the
  comparator's sign; it is modelled by the stable `List.insertionSort`
  over the relation "comparator result ≤ 0".
* `Math.random()`-derived indices are extra function arguments constrained
  by the bounds the call site guarantees (`Math.floor(Math.random()*n) < n`,
  and the resampling loop in `shuffleOnce` guarantees the two indices
  differ).
* Timer handles are modelled as `Bool` flags (scheduled or not); timer
  callbacks themselves are not part of the claims settled here.
-/

namespace CatchingPuppy

/-- `const MAX_STAGE = 100` from App.jsx. -/
def MAX_STAGE : Int := 100

/-- `clampStage` from App.jsx: non-finite values become 1, otherwise the
value is clamped into `[1, MAX_STAGE]`. -/
def clampStage (value : Option Int) : Int :=
  match value with
  | none => 1
  | some v => max 1 (min MAX_STAGE v)

/-- `clampScore` from App.jsx: non-finite values become 0, otherwise the
value is clamped into `[0, MAX_STAGE]`. -/
def clampScore (value : Option Int) : Int :=
  match value with
  | none => 0
  | some v => max 0 (min MAX_STAGE v)

/-- The whitespace class of JavaScript `\s` and `String.prototype.trim`
(restricted to the ASCII whitespace characters). -/
def isWS (c : Char) : Bool :=
  c == ' ' || c == '\t' || c == '\n' || c == '\r' || c == '\x0b' || c == '\x0c'

/-- `value.trim()`: drop leading and trailing whitespace. -/
def trimWS (cs : List Char) : List Char :=
  ((cs.dropWhile isWS).reverse.dropWhile isWS).reverse

/-- `replace(/\s+/g, ' ')`: collapse every maximal run of whitespace into a
single space character. -/
def collapseWS : List Char → List Char
  | [] => []
  | [c] => [if isWS c then ' ' else c]
  | c :: d :: cs =>
    if isWS c && isWS d then collapseWS (d :: cs)
    else (if isWS c then ' ' else c) :: collapseWS (d :: cs)

/-- `normalizeNickname` from App.jsx: `value.trim().replace(/\s+/g, ' ')`. -/
def normalizeNickname (s : String) : String :=
  ⟨collapseWS (trimWS s.data)⟩

/-- `String.prototype.toLowerCase`, modelled character-wise. -/
def lowerStr (s : String) : String :=
  ⟨s.data.map Char.toLower⟩

/-- `isValidNickname` from App.jsx. -/
def isValidNickname (s : String) : Bool :=
  let length := (normalizeNickname s).length
  2 ≤ length && length ≤ 12

/-- A leaderboard entry `{nickname, score, playedAt}`. -/
structure Entry where
  nickname : String
  score : Int
  playedAt : Int
deriving DecidableEq

instance : Inhabited Entry := ⟨⟨"", 0, 0⟩⟩

/-- A raw element of the stored leaderboard array, before sanitization.
`valid = false` models `!item || typeof item !== 'object'`; `nickname` is
the string `String(item.nickname || '')`; `score` and `playedAt` are the
numbers `Number(item.score)` / `Number(item.playedAt)` with `none` for a
non-finite result. -/
structure RawItem where
  valid : Bool
  nickname : String
  score : Option Int
  playedAt : Option Int
deriving DecidableEq

/-- The raw value handed to `sanitizeLeaderboard`: either not an array at
all, or an array of raw items. -/
inductive RawData where
  | notArray : RawData
  | arr : List RawItem → RawData
deriving DecidableEq

/-- A well-formed entry viewed as the raw object it is at runtime (used
when `sanitizeLeaderboard` is re-applied to already-sanitized data). -/
def toRaw (e : Entry) : RawItem :=
  { valid := true, nickname := e.nickname, score := some e.score, playedAt := some e.playedAt }

/-- The body of the `data.map((item, index) => ...)` callback in
`sanitizeLeaderboard`: drop non-objects and entries whose normalized
nickname is empty, clamp the score, and default a non-finite timestamp to
`Date.now() - index * 1000`. -/
def sanitizeItem (now : Int) (index : Nat) (item : RawItem) : Option Entry :=
  if item.valid = false then none
  else
    let nickname := normalizeNickname item.nickname
    if nickname = "" then none
    else some
      { nickname := nickname
        score := clampScore item.score
        playedAt :=
          match item.playedAt with
          | some t => t
          | none => now - (index : Int) * 1000 }

/-- `data.map((item, index) => ...).filter(Boolean)`: map with index and
keep the non-null results. -/
def sanitizeItems (now : Int) : Nat → List RawItem → List Entry
  | _, [] => []
  | i, r :: rs =>
    match sanitizeItem now i r with
    | some e => e :: sanitizeItems now (i + 1) rs
    | none => sanitizeItems now (i + 1) rs

/-- The sort comparator `(a, b) => b.score - a.score || a.playedAt - b.playedAt`. -/
def entryCmp (a b : Entry) : Int :=
  if b.score - a.score ≠ 0 then b.score - a.score else a.playedAt - b.playedAt

/-- The total preorder induced by the comparator: `a` may come before `b`
exactly when the comparator is non-positive (higher score first, and for
equal scores earlier `playedAt` first). -/
def rankLe (a b : Entry) : Prop := entryCmp a b ≤ 0

instance : DecidableRel rankLe := fun a b =>
  inferInstanceAs (Decidable (entryCmp a b ≤ 0))

instance : IsTotal Entry rankLe :=
  ⟨by
    intro a b
    unfold rankLe entryCmp
    split_ifs <;> omega⟩

instance : IsTrans Entry rankLe :=
  ⟨by
    intro a b c
    unfold rankLe entryCmp
    split_ifs <;> omega⟩

/-- `sanitizeLeaderboard` from App.jsx: reject non-arrays, clean each
element, sort by score descending with earlier `playedAt` breaking ties
(stable), and keep the first 100 entries. -/
def sanitizeLeaderboard (now : Int) (data : RawData) : List Entry :=
  match data with
  | .notArray => []
  | .arr items => ((sanitizeItems now 0 items).insertionSort rankLe).take 100

/-- `Array.prototype.findIndex`, returning the index of the first element
satisfying the predicate. -/
def findIndex (p : α → Bool) : List α → Option Nat
  | [] => none
  | a :: as => if p a then some 0 else (findIndex p as).map (· + 1)

/-- `buildUpdatedLeaderboard` from App.jsx: look up the nickname
case-insensitively; on a match replace the entry only when the new score
is strictly greater (stamping the current time), otherwise keep the array
as is; without a match append a fresh entry; finally sanitize. -/
def buildUpdatedLeaderboard (now : Int) (current : List Entry)
    (nickname : String) (score : Int) : List Entry :=
  let normalizedNickname := normalizeNickname nickname
  let normalizedLower := lowerStr normalizedNickname
  match findIndex (fun item => lowerStr item.nickname == normalizedLower) current with
  | some existingIndex =>
    let existing := current.getD existingIndex default
    let next :=
      if existing.score < score then
        current.set existingIndex { existing with score := score, playedAt := now }
      else current
    sanitizeLeaderboard now (.arr (next.map toRaw))
  | none =>
    sanitizeLeaderboard now
      (.arr ((current ++ [({ nickname := normalizedNickname, score := score, playedAt := now } : Entry)]).map toRaw))

/-- A dog `{id, slot}` from the permutation engine. -/
structure Dog where
  id : Nat
  slot : Nat
deriving DecidableEq

instance : Inhabited Dog := ⟨⟨0, 0⟩⟩

/-- `getDogCount` from App.jsx: `stage >= 5 ? 5 : 3`. -/
def getDogCount (stage : Int) : Int :=
  if 5 ≤ stage then 5 else 3

/-- `createDogs` from App.jsx: `Array.from({length: count}, (_, idx) =>
({id: idx + 1, slot: idx}))`.  A non-positive (or non-integral, absorbed
by `toNat`) length yields the empty array, exactly as `Array.from` does. -/
def createDogs (count : Int) : List Dog :=
  (List.range count.toNat).map fun idx => { id := idx + 1, slot := idx }

/-- `shuffleOnce` from App.jsx.  The two randomly sampled indices are
passed explicitly: the call site guarantees `first < dogs.length`,
`second < dogs.length`, and — thanks to the resampling `while` loop —
`second ≠ first`.  The two assignments read from the array in program
order, so the second assignment reads `next[second]` after `next[first]`
was overwritten (harmless because the indices differ). -/
def shuffleOnce (dogs : List Dog) (first second : Nat) : List Dog :=
  if dogs.length < 2 then dogs
  else
    let firstSlot := (dogs.getD first default).slot
    let n1 := dogs.set first { dogs.getD first default with slot := (dogs.getD second default).slot }
    let n2 := n1.set second { n1.getD second default with slot := firstSlot }
    n2

/-- `getShuffleDuration` from App.jsx. -/
def getShuffleDuration (stage : Int) : Int :=
  min 9800 (3000 + stage * 650)

/-- `getShuffleInterval` from App.jsx. -/
def getShuffleInterval (stage : Int) : Int :=
  max 130 (620 - stage * 45)

/-- The spec's own formula `shuffleDurationMs(stage) = min(9800, 3000 +
stage*650)`, written from the spec text for the refinement claim C6. -/
def specShuffleDurationMs (stage : Int) : Int :=
  min 9800 (3000 + stage * 650)

/-- The spec's own formula `shuffleIntervalMs(stage) = max(130, 620 -
stage*45)`, written from the spec text for the refinement claim C6. -/
def specShuffleIntervalMs (stage : Int) : Int :=
  max 130 (620 - stage * 45)

/-- The phases of the round state machine in App.jsx. -/
inductive Phase where
  | ready | feeding | shuffling | guessing | result | ranking
deriving DecidableEq

/-- The `result` React state: `'success'`, `'fail'` or `null` (as `none`). -/
inductive Outcome where
  | success | fail
deriving DecidableEq

/-- The React state of the App component in App.jsx that the round state
machine and leaderboard logic read and write.  Timer refs are modelled as
booleans recording whether a handle is currently scheduled. -/
structure GameState where
  stage : Int
  dogs : List Dog
  targetDogId : Option Nat
  phase : Phase
  result : Option Outcome
  selectedDogId : Option Nat
  shuffleProgress : Int
  nickname : String
  pendingStartAfterNickname : Bool
  showNicknameSetup : Bool
  localLeaderboard : List Entry
  displayLeaderboard : List Entry
  isSharedRanking : Bool
  lastScore : Option Int
  shareFeedback : String
  feedingTimeout : Bool
  shuffleTimeout : Bool
  shuffleIntervalTimer : Bool
  progressIntervalTimer : Bool
deriving DecidableEq

/-- `clearTimers` from App.jsx: cancel every outstanding timer. -/
def clearTimers (s : GameState) : GameState :=
  { s with feedingTimeout := false, shuffleTimeout := false,
           shuffleIntervalTimer := false, progressIntervalTimer := false }

/-- `setupStage` from App.jsx. -/
def setupStage (nextStage : Int) (s : GameState) : GameState :=
  let safeStage := clampStage (some nextStage)
  let s1 := clearTimers s
  { s1 with stage := safeStage, dogs := createDogs (getDogCount safeStage),
            targetDogId := none, phase := .ready, result := none,
            selectedDogId := none, shuffleProgress := 0 }

/-- `startRound` from App.jsx.  `chooseIdx` is the random index
`Math.floor(Math.random() * currentDogs.length)` used to pick the target. -/
def startRound (chooseIdx : Nat) (forcedStage : Int) (s : GameState) : GameState :=
  let s1 := clearTimers s
  let currentStage := clampStage (some forcedStage)
  let currentDogs := createDogs (getDogCount currentStage)
  let chosen := currentDogs.getD chooseIdx default
  { s1 with stage := currentStage, dogs := currentDogs, targetDogId := some chosen.id,
            selectedDogId := none, result := none, shuffleProgress := 0,
            shareFeedback := "", phase := .feeding, feedingTimeout := true }

/-- `finishGame` from App.jsx: clamp the score, merge it into the local
leaderboard under the current nickname, publish the merged board, record
the score and move to the terminal `ranking` phase. -/
def finishGame (now : Int) (score : Int) (s : GameState) : GameState :=
  let s1 := clearTimers s
  let finalScore := clampScore (some score)
  let updated := buildUpdatedLeaderboard now s1.localLeaderboard s1.nickname finalScore
  { s1 with localLeaderboard := updated, displayLeaderboard := updated,
            lastScore := some finalScore, isSharedRanking := false, phase := .ranking }

/-- `handleDogPick` from App.jsx: a no-op outside the `guessing` phase;
otherwise record the selection and outcome, then either finish at
`MAX_STAGE` on a correct final pick, finish with `stage - 1` on an
incorrect pick, or move to `result`. -/
def handleDogPick (now : Int) (dogId : Nat) (s : GameState) : GameState :=
  if s.phase ≠ Phase.guessing then s
  else
    let isCorrect := decide (some dogId = s.targetDogId)
    let s1 := { s with selectedDogId := some dogId,
                       result := some (if isCorrect then Outcome.success else Outcome.fail) }
    if isCorrect ∧ s1.stage = MAX_STAGE then finishGame now MAX_STAGE s1
    else if isCorrect = false then finishGame now (s1.stage - 1) s1
    else { s1 with phase := Phase.result }

/-- `handlePrimaryAction` from App.jsx. -/
def handlePrimaryAction (chooseIdx : Nat) (s : GameState) : GameState :=
  if s.phase = Phase.ready then
    if s.nickname = "" then
      { s with pendingStartAfterNickname := true, showNicknameSetup := true }
    else startRound chooseIdx s.stage s
  else if s.phase = Phase.result ∧ s.result = some Outcome.success then
    setupStage (s.stage + 1) s
  else s

/-- `handleStartFromRanking` from App.jsx. -/
def handleStartFromRanking (chooseIdx : Nat) (s : GameState) : GameState :=
  if s.nickname = "" then
    { s with pendingStartAfterNickname := true, showNicknameSetup := true }
  else
    startRound chooseIdx 1 { s with shareFeedback := "", lastScore := none, isSharedRanking := false }

/-! ### General list helper lemmas -/

theorem set_getD_self : ∀ (l : List α) (i : Nat) (d : α), i < l.length → l.set i (l.getD i d) = l
  | [], i, _, h => by simp at h
  | _ :: _, 0, _, _ => by simp
  | a :: t, i + 1, d, h => by
    simpa using set_getD_self t i d (by simpa using h)

theorem getD_map (g : α → β) (l : List α) (i : Nat) (d : α) :
    (l.map g).getD i (g d) = g (l.getD i d) := by
  cases h : l[i]? <;>
    simp [List.getD_eq_getElem?_getD, List.getElem?_map, h]

theorem cons_set_perm (t : List α) (m : Nat) (a d : α) (hm : m < t.length) :
    List.Perm (t.getD m d :: t.set m a) (a :: t) := by
  induction t generalizing m with
  | nil => simp at hm
  | cons b t ih =>
    cases m with
    | zero => simpa using List.Perm.swap a b t
    | succ k =>
      have hk : k < t.length := by simpa using hm
      have step1 : List.Perm (t.getD k d :: b :: t.set k a) (b :: t.getD k d :: t.set k a) :=
        List.Perm.swap b (t.getD k d) (t.set k a)
      have step2 : List.Perm (b :: t.getD k d :: t.set k a) (b :: a :: t) :=
        (ih k hk).cons b
      have step3 : List.Perm (b :: a :: t) (a :: b :: t) := List.Perm.swap a b t
      simpa using (step1.trans step2).trans step3

theorem swap_set_perm (l : List α) (i j : Nat) (d : α) :
    i < l.length → j < l.length → i ≠ j →
    List.Perm ((l.set i (l.getD j d)).set j (l.getD i d)) l := by
  induction l generalizing i j with
  | nil => intro hi; simp at hi
  | cons a t ih =>
    intro hi hj hij
    cases i with
    | zero =>
      cases j with
      | zero => exact absurd rfl hij
      | succ k =>
        simpa using cons_set_perm t k a d (by simpa using hj)
    | succ m =>
      cases j with
      | zero =>
        simpa using cons_set_perm t m a d (by simpa using hi)
      | succ k =>
        have h := ih m k (by simpa using hi) (by simpa using hj) (by omega)
        simpa using h.cons a

/-! ### Shuffle engine lemmas -/

theorem shuffleOnce_small (dogs : List Dog) (f s : Nat) (h : dogs.length < 2) :
    shuffleOnce dogs f s = dogs := by
  unfold shuffleOnce
  rw [if_pos h]

theorem shuffleOnce_length (dogs : List Dog) (f s : Nat) :
    (shuffleOnce dogs f s).length = dogs.length := by
  unfold shuffleOnce
  split <;> simp

theorem shuffleOnce_getD_other (dogs : List Dog) (f s : Nat) (h2 : 2 ≤ dogs.length)
    (i : Nat) (hif : i ≠ f) (his : i ≠ s) :
    (shuffleOnce dogs f s).getD i default = dogs.getD i default := by
  unfold shuffleOnce
  rw [if_neg (by omega)]
  simp [List.getD_eq_getElem?_getD, List.getElem?_set_ne (Ne.symm his),
    List.getElem?_set_ne (Ne.symm hif)]

theorem shuffleOnce_getD_fst (dogs : List Dog) (f s : Nat) (h2 : 2 ≤ dogs.length)
    (hf : f < dogs.length) (hfs : f ≠ s) :
    (shuffleOnce dogs f s).getD f default =
      { dogs.getD f default with slot := (dogs.getD s default).slot } := by
  unfold shuffleOnce
  rw [if_neg (by omega)]
  simp [List.getD_eq_getElem?_getD, List.getElem?_set_ne (Ne.symm hfs),
    List.getElem?_set_self hf]

theorem shuffleOnce_getD_snd (dogs : List Dog) (f s : Nat) (h2 : 2 ≤ dogs.length)
    (hs : s < dogs.length) (hfs : f ≠ s) :
    (shuffleOnce dogs f s).getD s default =
      { dogs.getD s default with slot := (dogs.getD f default).slot } := by
  unfold shuffleOnce
  rw [if_neg (by omega)]
  simp [List.getD_eq_getElem?_getD, List.getElem?_set_self, List.getElem?_set_ne hfs, hs]

theorem shuffleOnce_map_id (dogs : List Dog) (f s : Nat) (h2 : 2 ≤ dogs.length)
    (hf : f < dogs.length) (hs : s < dogs.length) (hfs : f ≠ s) :
    (shuffleOnce dogs f s).map Dog.id = dogs.map Dog.id := by
  unfold shuffleOnce
  rw [if_neg (by omega)]
  rw [List.map_set, List.map_set]
  have hids : (({ dogs.getD s default with slot := (dogs.getD f default).slot } : Dog)).id =
      (dogs.map Dog.id).getD s ((default : Dog).id) := by
    rw [getD_map]
  have hidf : (({ dogs.getD f default with slot := (dogs.getD s default).slot } : Dog)).id =
      (dogs.map Dog.id).getD f ((default : Dog).id) := by
    rw [getD_map]
  have hgd : ((dogs.set f { dogs.getD f default with slot := (dogs.getD s default).slot }).getD s
      default) = dogs.getD s default := by
    simp [List.getD_eq_getElem?_getD, List.getElem?_set_ne hfs]
  rw [hgd, hids, hidf]
  rw [set_getD_self (dogs.map Dog.id) f _ (by simpa using hf)]
  rw [set_getD_self (dogs.map Dog.id) s _ (by simpa using hs)]

theorem shuffleOnce_map_slot (dogs : List Dog) (f s : Nat) (h2 : 2 ≤ dogs.length)
    (hf : f < dogs.length) (hs : s < dogs.length) (hfs : f ≠ s) :
    (shuffleOnce dogs f s).map Dog.slot =
      ((dogs.map Dog.slot).set f ((dogs.map Dog.slot).getD s ((default : Dog).slot))).set s
        ((dogs.map Dog.slot).getD f ((default : Dog).slot)) := by
  unfold shuffleOnce
  rw [if_neg (by omega)]
  rw [List.map_set, List.map_set]
  have hgd : ((dogs.set f { dogs.getD f default with slot := (dogs.getD s default).slot }).getD s
      default) = dogs.getD s default := by
    simp [List.getD_eq_getElem?_getD, List.getElem?_set_ne hfs]
  rw [hgd, getD_map, getD_map]

theorem shuffleOnce_slot_perm (dogs : List Dog) (f s : Nat) (h2 : 2 ≤ dogs.length)
    (hf : f < dogs.length) (hs : s < dogs.length) (hfs : f ≠ s) :
    List.Perm ((shuffleOnce dogs f s).map Dog.slot) (dogs.map Dog.slot) := by
  rw [shuffleOnce_map_slot dogs f s h2 hf hs hfs]
  exact swap_set_perm (dogs.map Dog.slot) f s ((default : Dog).slot)
    (by simpa using hf) (by simpa using hs) hfs

/-- The slot assignment of a valid layout is a bijection onto `0..n-1`:
the multiset of slot values is exactly `range (number of dogs)`. -/
def validLayout (dogs : List Dog) : Prop :=
  List.Perm (dogs.map Dog.slot) (List.range dogs.length)

theorem validLayout_slots_nodup {dogs : List Dog} (h : validLayout dogs) :
    (dogs.map Dog.slot).Nodup :=
  (List.Perm.nodup_iff h).mpr (List.nodup_range dogs.length)

theorem validLayout_getD_slot_ne {dogs : List Dog} (h : validLayout dogs)
    {i j : Nat} (hi : i < dogs.length) (hj : j < dogs.length) (hij : i ≠ j) :
    (dogs.getD i default).slot ≠ (dogs.getD j default).slot := by
  have hnd := validLayout_slots_nodup h
  have hi' : i < (dogs.map Dog.slot).length := by simpa using hi
  have hj' : j < (dogs.map Dog.slot).length := by simpa using hj
  have hgi : (dogs.map Dog.slot).getD i ((default : Dog).slot) = (dogs.getD i default).slot :=
    getD_map Dog.slot dogs i default
  have hgj : (dogs.map Dog.slot).getD j ((default : Dog).slot) = (dogs.getD j default).slot :=
    getD_map Dog.slot dogs j default
  have hgi' : (dogs.map Dog.slot).getD i ((default : Dog).slot) = (dogs.map Dog.slot).get ⟨i, hi'⟩ := by
    simp [List.getD_eq_getElem?_getD, List.getElem?_eq_getElem hi']
  have hgj' : (dogs.map Dog.slot).getD j ((default : Dog).slot) = (dogs.map Dog.slot).get ⟨j, hj'⟩ := by
    simp [List.getD_eq_getElem?_getD, List.getElem?_eq_getElem hj']
  intro hEq
  apply hij
  have hget : (dogs.map Dog.slot).get ⟨i, hi'⟩ = (dogs.map Dog.slot).get ⟨j, hj'⟩ := by
    rw [← hgi', ← hgj', hgi, hgj, hEq]
  have hfin := List.nodup_iff_injective_get.mp hnd hget
  simpa using congrArg Fin.val hfin

/-! ### Claim theorems: permutation engine and timing -/

/-- C6: the shuffle timing functions of the code equal the spec's formulas
`min(9800, 3000 + stage*650)` and `max(130, 620 - stage*45)` exactly, at
every stage. -/
theorem claim_timing_matches_spec (stage : Int) :
    getShuffleDuration stage = specShuffleDurationMs stage ∧
    getShuffleInterval stage = specShuffleIntervalMs stage :=
  ⟨rfl, rfl⟩

/-- C7, counterexample: the claim says `getShuffleDuration` is monotonic
non-increasing and `getShuffleInterval` monotonic non-decreasing in stage,
but on stages 1 and 2 the code's duration strictly increases
(3650 < 4300) and the interval strictly decreases (530 < 575). -/
theorem claim_timing_monotone_counterexample :
    getShuffleDuration 1 < getShuffleDuration 2 ∧
    getShuffleInterval 2 < getShuffleInterval 1 := by
  constructor <;> decide

/-- C7, amended: for all stage pairs in `[1,100]` the duration is monotonic
non-decreasing and the interval monotonic non-increasing (the directions
the code actually implements), and both respect the stated bounds
(duration ceiling 9800, interval floor 130) throughout, in particular at
stage 1 and stage 100. -/
theorem claim_timing_monotone (s t : Int) (h1 : 1 ≤ s) (hst : s ≤ t) (h100 : t ≤ 100) :
    getShuffleDuration s ≤ getShuffleDuration t ∧
    getShuffleInterval t ≤ getShuffleInterval s ∧
    getShuffleDuration s ≤ 9800 ∧ getShuffleDuration t ≤ 9800 ∧
    130 ≤ getShuffleInterval s ∧ 130 ≤ getShuffleInterval t := by
  unfold getShuffleDuration getShuffleInterval
  refine ⟨?_, ?_, ?_, ?_, ?_, ?_⟩ <;> omega

/-- Witness for C7's amended theorem at the endpoints stage 1, stage 100. -/
theorem claim_timing_monotone_witness :
    getShuffleDuration 1 ≤ getShuffleDuration 100 ∧
    getShuffleInterval 100 ≤ getShuffleInterval 1 ∧
    getShuffleDuration 1 ≤ 9800 ∧ getShuffleDuration 100 ≤ 9800 ∧
    130 ≤ getShuffleInterval 1 ∧ 130 ≤ getShuffleInterval 100 :=
  claim_timing_monotone 1 100 (by decide) (by decide) (by decide)

/-- C8, counterexample: the claim says `createDogs` fails for every
non-positive count, but the code cannot fail: `Array.from({length: n})`
with a non-positive `n` simply yields the empty array, a well-defined
result (the same value the successful clause would prescribe for zero
dogs). -/
theorem claim_createDogs_counterexample :
    createDogs 0 = [] ∧ createDogs (-3) = [] := by
  constructor <;> rfl

/-- C8, amended: for every positive count, `createDogs` returns exactly
`count` dogs with identifiers `1..count` in order and each slot equal to
its identifier minus one; for every non-positive count it returns the
empty layout (it never fails — invalid counts are absorbed into an empty
result). -/
theorem claim_createDogs_total (count : Int) :
    (0 < count →
      (createDogs count).length = count.toNat ∧
      (createDogs count).map Dog.id = List.range' 1 count.toNat ∧
      (createDogs count).map Dog.slot = List.range count.toNat ∧
      ∀ d ∈ createDogs count, d.slot + 1 = d.id) ∧
    (count ≤ 0 → createDogs count = []) := by
  constructor
  · intro _
    refine ⟨by simp [createDogs], ?_, ?_, ?_⟩
    · rw [List.range'_eq_map_range]
      simp only [createDogs, List.map_map]
      exact List.map_congr_left (fun a _ => by simp [Function.comp]; omega)
    · simp only [createDogs, List.map_map]
      have hcomp : (Dog.slot ∘ fun idx => ({ id := idx + 1, slot := idx } : Dog)) = id := rfl
      rw [hcomp, List.map_id]
    · intro d hd
      simp only [createDogs, List.mem_map, List.mem_range] at hd
      obtain ⟨idx, _, rfl⟩ := hd
      rfl
  · intro h
    have h0 : count.toNat = 0 := by omega
    simp [createDogs, h0]

/-- Witness for C8's amended theorem at counts 3 and 0. -/
theorem claim_createDogs_total_witness :
    ((createDogs 3).length = (3 : Int).toNat ∧
      (createDogs 3).map Dog.id = List.range' 1 (3 : Int).toNat ∧
      (createDogs 3).map Dog.slot = List.range (3 : Int).toNat ∧
      ∀ d ∈ createDogs 3, d.slot + 1 = d.id) ∧
    createDogs 0 = [] :=
  ⟨(claim_createDogs_total 3).1 (by decide), (claim_createDogs_total 0).2 (by decide)⟩

/-- C9: on any list of at least two dogs, with the two sampled indices in
range and distinct (as the call site guarantees), `shuffleOnce` keeps the
length, keeps every dog's identifier at its array position, leaves every
dog other than the two at the sampled indices entirely unchanged, and the
two affected dogs keep their identifiers and exchange exactly their slot
fields. -/
theorem claim_shuffleOnce_frame (dogs : List Dog) (f s : Nat)
    (h2 : 2 ≤ dogs.length) (hf : f < dogs.length) (hs : s < dogs.length) (hfs : f ≠ s) :
    (shuffleOnce dogs f s).length = dogs.length ∧
    (shuffleOnce dogs f s).map Dog.id = dogs.map Dog.id ∧
    (∀ i, i ≠ f → i ≠ s → (shuffleOnce dogs f s).getD i default = dogs.getD i default) ∧
    (shuffleOnce dogs f s).getD f default =
      { dogs.getD f default with slot := (dogs.getD s default).slot } ∧
    (shuffleOnce dogs f s).getD s default =
      { dogs.getD s default with slot := (dogs.getD f default).slot } :=
  ⟨shuffleOnce_length dogs f s,
   shuffleOnce_map_id dogs f s h2 hf hs hfs,
   fun i hif his => shuffleOnce_getD_other dogs f s h2 i hif his,
   shuffleOnce_getD_fst dogs f s h2 hf hfs,
   shuffleOnce_getD_snd dogs f s h2 hs hfs⟩

/-- Witness for C9 on the concrete three-dog layout with indices 0 and 2. -/
theorem claim_shuffleOnce_frame_witness :
    (shuffleOnce (createDogs 3) 0 2).length = (createDogs 3).length ∧
    (shuffleOnce (createDogs 3) 0 2).map Dog.id = (createDogs 3).map Dog.id ∧
    (∀ i, i ≠ 0 → i ≠ 2 →
      (shuffleOnce (createDogs 3) 0 2).getD i default = (createDogs 3).getD i default) ∧
    (shuffleOnce (createDogs 3) 0 2).getD 0 default =
      { (createDogs 3).getD 0 default with slot := ((createDogs 3).getD 2 default).slot } ∧
    (shuffleOnce (createDogs 3) 0 2).getD 2 default =
      { (createDogs 3).getD 2 default with slot := ((createDogs 3).getD 0 default).slot } :=
  claim_shuffleOnce_frame (createDogs 3) 0 2 (by decide) (by decide) (by decide) (by decide)

/-- C1: on a valid layout (slot values a bijection onto `0..n-1`) of at
least two dogs, with in-range distinct sampled indices, `shuffleOnce`
preserves the identifier sequence and the multiset of slot values (a
permutation of the input's slots), changes the slot of exactly the two
sampled dogs, and never returns the input unchanged; on a layout of fewer
than two dogs it returns the layout unchanged. -/
theorem claim_shuffleOnce_permutes (dogs : List Dog) (f s : Nat) :
    (2 ≤ dogs.length → f < dogs.length → s < dogs.length → f ≠ s → validLayout dogs →
      (shuffleOnce dogs f s).map Dog.id = dogs.map Dog.id ∧
      List.Perm ((shuffleOnce dogs f s).map Dog.slot) (dogs.map Dog.slot) ∧
      (∀ i, ((shuffleOnce dogs f s).getD i default).slot ≠ (dogs.getD i default).slot ↔
        (i = f ∨ i = s)) ∧
      shuffleOnce dogs f s ≠ dogs) ∧
    (dogs.length < 2 → shuffleOnce dogs f s = dogs) := by
  constructor
  · intro h2 hf hs hfs hval
    have hne_fs : (dogs.getD f default).slot ≠ (dogs.getD s default).slot :=
      validLayout_getD_slot_ne hval hf hs hfs
    have hfst := shuffleOnce_getD_fst dogs f s h2 hf hfs
    have hsnd := shuffleOnce_getD_snd dogs f s h2 hs hfs
    refine ⟨shuffleOnce_map_id dogs f s h2 hf hs hfs,
      shuffleOnce_slot_perm dogs f s h2 hf hs hfs, ?_, ?_⟩
    · intro i
      constructor
      · intro hch
        by_contra hcon
        push_neg at hcon
        rw [shuffleOnce_getD_other dogs f s h2 i hcon.1 hcon.2] at hch
        exact hch rfl
      · rintro (rfl | rfl)
        · rw [hfst]
          exact fun hcon => hne_fs (hcon.symm)
        · rw [hsnd]
          exact fun hcon => hne_fs hcon
    · intro hcon
      have := congrArg (fun l => (List.getD l f default).slot) hcon
      simp only at this
      rw [hfst] at this
      exact hne_fs this.symm
  · exact shuffleOnce_small dogs f s

/-- Witness for C1 on the fresh three-dog layout with indices 0 and 2. -/
theorem claim_shuffleOnce_permutes_witness :
    (shuffleOnce (createDogs 3) 0 2).map Dog.id = (createDogs 3).map Dog.id ∧
    List.Perm ((shuffleOnce (createDogs 3) 0 2).map Dog.slot) ((createDogs 3).map Dog.slot) ∧
    (∀ i, ((shuffleOnce (createDogs 3) 0 2).getD i default).slot ≠
        ((createDogs 3).getD i default).slot ↔ (i = 0 ∨ i = 2)) ∧
    shuffleOnce (createDogs 3) 0 2 ≠ createDogs 3 :=
  (claim_shuffleOnce_permutes (createDogs 3) 0 2).1 (by decide) (by decide) (by decide)
    (by decide) (List.Perm.refl _)

/-! ### Nickname normalization lemmas

`normalizeNickname` is idempotent: its output starts and ends with a
non-whitespace character, contains no two adjacent whitespace characters,
and every whitespace character it contains is a plain space, and any
string of that shape is a fixpoint of both `trimWS` and `collapseWS`. -/

theorem collapseWS_mem : ∀ (cs : List Char) (c : Char), c ∈ collapseWS cs →
    (c ∈ cs ∧ isWS c = false) ∨ c = ' '
  | [], c, h => by simp [collapseWS] at h
  | [a], c, h => by
    simp only [collapseWS] at h
    cases ha : isWS a
    · rw [ha] at h
      simp at h
      exact Or.inl ⟨by simp [h], h ▸ ha⟩
    · rw [ha] at h
      simp at h
      exact Or.inr h
  | a :: b :: cs, c, h => by
    simp only [collapseWS] at h
    by_cases hab : (isWS a && isWS b) = true
    · rw [if_pos hab] at h
      rcases collapseWS_mem (b :: cs) c h with ⟨hm, hw⟩ | hsp
      · exact Or.inl ⟨List.mem_cons_of_mem a hm, hw⟩
      · exact Or.inr hsp
    · rw [if_neg hab] at h
      cases ha : isWS a
      · rw [ha] at h
        rw [if_neg (by simp : ¬(false = true))] at h
        rcases List.mem_cons.mp h with rfl | htail
        · exact Or.inl ⟨List.mem_cons_self _ _, ha⟩
        · rcases collapseWS_mem (b :: cs) c htail with ⟨hm, hw⟩ | hsp
          · exact Or.inl ⟨List.mem_cons_of_mem a hm, hw⟩
          · exact Or.inr hsp
      · rw [ha] at h
        rw [if_pos (rfl : (true = true))] at h
        rcases List.mem_cons.mp h with rfl | htail
        · exact Or.inr rfl
        · rcases collapseWS_mem (b :: cs) c htail with ⟨hm, hw⟩ | hsp
          · exact Or.inl ⟨List.mem_cons_of_mem a hm, hw⟩
          · exact Or.inr hsp

theorem collapseWS_ne_nil : ∀ (a : Char) (cs : List Char), collapseWS (a :: cs) ≠ []
  | _, [] => by simp [collapseWS]
  | a, b :: cs => by
    simp only [collapseWS]
    by_cases hab : (isWS a && isWS b) = true
    · rw [if_pos hab]
      exact collapseWS_ne_nil b cs
    · rw [if_neg hab]
      simp

theorem collapseWS_head (b : Char) (cs : List Char) (hb : isWS b = false) :
    (collapseWS (b :: cs)).head? = some b := by
  cases cs with
  | nil => simp [collapseWS, hb]
  | cons d cs =>
    simp only [collapseWS]
    rw [if_neg (by simp [hb])]
    simp [hb]

theorem collapseWS_chain : ∀ (cs : List Char),
    List.Chain' (fun c d => isWS c = false ∨ isWS d = false) (collapseWS cs)
  | [] => by simp [collapseWS]
  | [a] => by
    simp only [collapseWS]
    exact List.chain'_singleton _
  | a :: b :: cs => by
    have ih := collapseWS_chain (b :: cs)
    simp only [collapseWS]
    by_cases hab : (isWS a && isWS b) = true
    · rw [if_pos hab]
      exact ih
    · rw [if_neg hab]
      rw [List.chain'_cons']
      refine ⟨?_, ih⟩
      intro y hy
      cases ha : isWS a
      · left
        simp [ha]
      · have hb : isWS b = false := by
          cases hbb : isWS b
          · rfl
          · exact absurd (by simp [ha, hbb]) hab
        right
        rw [collapseWS_head b cs hb] at hy
        simp only [Option.mem_def, Option.some.injEq] at hy
        exact hy ▸ hb

theorem collapseWS_getLast : ∀ (cs : List Char),
    (∀ c, cs.getLast? = some c → isWS c = false) →
    ∀ c, (collapseWS cs).getLast? = some c → isWS c = false
  | [], _, c, hc => by simp [collapseWS] at hc
  | [a], h, c, hc => by
    have ha : isWS a = false := h a rfl
    simp only [collapseWS] at hc
    rw [if_neg (by simp [ha])] at hc
    simp only [List.getLast?_singleton, Option.some.injEq] at hc
    exact hc ▸ ha
  | a :: b :: cs, h, c, hc => by
    have htail : ∀ x, (b :: cs).getLast? = some x → isWS x = false := by
      intro x hx
      exact h x (by rw [List.getLast?_cons_cons]; exact hx)
    simp only [collapseWS] at hc
    by_cases hab : (isWS a && isWS b) = true
    · rw [if_pos hab] at hc
      exact collapseWS_getLast (b :: cs) htail c hc
    · rw [if_neg hab] at hc
      obtain ⟨t0, t1, ht⟩ : ∃ t0 t1, collapseWS (b :: cs) = t0 :: t1 := by
        cases hcc : collapseWS (b :: cs) with
        | nil => exact absurd hcc (collapseWS_ne_nil b cs)
        | cons t0 t1 => exact ⟨t0, t1, rfl⟩
      rw [ht, List.getLast?_cons_cons] at hc
      exact collapseWS_getLast (b :: cs) htail c (by rw [ht]; exact hc)

theorem collapseWS_fix : ∀ (cs : List Char),
    List.Chain' (fun c d => isWS c = false ∨ isWS d = false) cs →
    (∀ c ∈ cs, isWS c = true → c = ' ') → collapseWS cs = cs
  | [], _, _ => rfl
  | [a], _, hsp => by
    simp only [collapseWS]
    cases ha : isWS a
    · rw [if_neg (by simp [ha])]
    · rw [if_pos (by simp [ha]), hsp a (by simp) ha]
  | a :: b :: cs, hch, hsp => by
    rw [List.chain'_cons] at hch
    have hab : ¬((isWS a && isWS b) = true) := by
      rcases hch.1 with h1 | h1 <;> simp [h1]
    simp only [collapseWS]
    rw [if_neg hab]
    rw [collapseWS_fix (b :: cs) hch.2 (fun c hc hw => hsp c (List.mem_cons_of_mem a hc) hw)]
    cases ha : isWS a
    · rw [if_neg (by simp [ha])]
    · rw [if_pos (by simp [ha]), hsp a (by simp) ha]

theorem trimWS_eq_rdropWhile (cs : List Char) :
    trimWS cs = (cs.dropWhile isWS).rdropWhile isWS := rfl

theorem trimWS_head (cs : List Char) (c : Char) (hc : (trimWS cs).head? = some c) :
    isWS c = false := by
  obtain ⟨rest, hrest⟩ := List.rdropWhile_prefix isWS (cs.dropWhile isWS)
  have hx : (cs.dropWhile isWS).head? = some c := by
    rw [← hrest, List.head?_append]
    rw [trimWS_eq_rdropWhile] at hc
    rw [hc]
    rfl
  have hmatch := List.head?_dropWhile_not isWS cs
  rw [hx] at hmatch
  exact hmatch

theorem trimWS_getLast (cs : List Char) (c : Char) (hc : (trimWS cs).getLast? = some c) :
    isWS c = false := by
  rw [trimWS_eq_rdropWhile] at hc
  have hne : (cs.dropWhile isWS).rdropWhile isWS ≠ [] := by
    intro h
    rw [h] at hc
    simp at hc
  have hlast := List.rdropWhile_last_not isWS (cs.dropWhile isWS) hne
  have hg : ((cs.dropWhile isWS).rdropWhile isWS).getLast hne = c := by
    have he := List.getLast?_eq_getLast ((cs.dropWhile isWS).rdropWhile isWS) hne
    rw [he] at hc
    exact Option.some_injective _ hc
  rw [hg] at hlast
  simpa using hlast

theorem trimWS_fix (l : List Char)
    (hh : ∀ c, l.head? = some c → isWS c = false)
    (hl : ∀ c, l.getLast? = some c → isWS c = false) :
    trimWS l = l := by
  have hdrop : l.dropWhile isWS = l := by
    cases l with
    | nil => rfl
    | cons a t =>
      have ha := hh a rfl
      simp [List.dropWhile_cons, ha]
  rw [trimWS_eq_rdropWhile, hdrop]
  rw [List.rdropWhile_eq_self_iff]
  intro hne
  have hc := hl (l.getLast hne) (List.getLast?_eq_getLast l hne)
  simp [hc]

theorem normalize_head_not_ws (cs : List Char) (c : Char)
    (hc : (collapseWS (trimWS cs)).head? = some c) : isWS c = false := by
  cases ht : trimWS cs with
  | nil =>
    rw [ht] at hc
    simp [collapseWS] at hc
  | cons b t =>
    have hb : isWS b = false := trimWS_head cs b (by rw [ht]; rfl)
    rw [ht, collapseWS_head b t hb] at hc
    injection hc with h
    rw [← h]
    exact hb

theorem normalize_getLast_not_ws (cs : List Char) (c : Char)
    (hc : (collapseWS (trimWS cs)).getLast? = some c) : isWS c = false :=
  collapseWS_getLast (trimWS cs) (fun x hx => trimWS_getLast cs x hx) c hc

theorem normalize_ws_is_space (cs : List Char) (c : Char)
    (hc : c ∈ collapseWS (trimWS cs)) (hw : isWS c = true) : c = ' ' := by
  rcases collapseWS_mem (trimWS cs) c hc with ⟨_, hnw⟩ | hsp
  · rw [hnw] at hw
    cases hw
  · exact hsp

theorem normalizeNickname_idem (s : String) :
    normalizeNickname (normalizeNickname s) = normalizeNickname s := by
  unfold normalizeNickname
  have hdata : (⟨collapseWS (trimWS s.data)⟩ : String).data = collapseWS (trimWS s.data) := rfl
  rw [hdata]
  have htrim : trimWS (collapseWS (trimWS s.data)) = collapseWS (trimWS s.data) :=
    trimWS_fix _ (fun c hc => normalize_head_not_ws s.data c hc)
      (fun c hc => normalize_getLast_not_ws s.data c hc)
  rw [htrim]
  rw [collapseWS_fix _ (collapseWS_chain (trimWS s.data))
    (fun c hc hw => normalize_ws_is_space s.data c hc hw)]

theorem clampScore_idem (v : Option Int) :
    clampScore (some (clampScore v)) = clampScore v := by
  cases v <;> simp [clampScore, MAX_STAGE] <;> omega

/-! ### Sanitization lemmas -/

theorem sanitizeItem_toRaw_good (now : Int) (i : Nat) (e : Entry)
    (hn : normalizeNickname e.nickname = e.nickname) (hne : e.nickname ≠ "") :
    sanitizeItem now i (toRaw e) = some { e with score := clampScore (some e.score) } := by
  simp only [sanitizeItem, toRaw, hn]
  rw [if_neg (by simp), if_neg hne]

theorem sanitizeItem_toRaw_empty (now : Int) (i : Nat) (e : Entry)
    (hn : normalizeNickname e.nickname = e.nickname) (hne : e.nickname = "") :
    sanitizeItem now i (toRaw e) = none := by
  simp only [sanitizeItem, toRaw, hn]
  rw [if_neg (by simp), if_pos hne]

theorem sanitizeItems_map_toRaw (now : Int) :
    ∀ (l : List Entry) (i : Nat),
    (∀ e ∈ l, normalizeNickname e.nickname = e.nickname) →
    sanitizeItems now i (l.map toRaw) =
      (l.filter (fun e => !(e.nickname == ""))).map
        (fun e => { e with score := clampScore (some e.score) })
  | [], _, _ => rfl
  | e :: l, i, h => by
    rw [List.map_cons]
    by_cases hne : e.nickname = ""
    · rw [List.filter_cons, if_neg (by simp [hne])]
      simp only [sanitizeItems, sanitizeItem_toRaw_empty now i e (h e (by simp)) hne]
      exact sanitizeItems_map_toRaw now l (i + 1) (fun x hx => h x (by simp [hx]))
    · rw [List.filter_cons, if_pos (by simp [hne])]
      simp only [sanitizeItems, sanitizeItem_toRaw_good now i e (h e (by simp)) hne,
        List.map_cons]
      rw [sanitizeItems_map_toRaw now l (i + 1) (fun x hx => h x (by simp [hx]))]

theorem sanitizeItems_mem_good (now : Int) :
    ∀ (rs : List RawItem) (i : Nat) (e : Entry), e ∈ sanitizeItems now i rs →
      normalizeNickname e.nickname = e.nickname ∧ e.nickname ≠ "" ∧
        clampScore (some e.score) = e.score
  | [], _, _, h => by simp [sanitizeItems] at h
  | r :: rs, i, e, h => by
    simp only [sanitizeItems] at h
    cases hsi : sanitizeItem now i r with
    | none =>
      rw [hsi] at h
      exact sanitizeItems_mem_good now rs (i + 1) e h
    | some e0 =>
      rw [hsi] at h
      rcases List.mem_cons.mp h with rfl | htail
      · simp only [sanitizeItem] at hsi
        by_cases hv : r.valid = false
        · rw [if_pos hv] at hsi
          cases hsi
        · rw [if_neg hv] at hsi
          by_cases hn : normalizeNickname r.nickname = ""
          · rw [if_pos hn] at hsi
            cases hsi
          · rw [if_neg hn] at hsi
            injection hsi with hsi
            rw [← hsi]
            refine ⟨normalizeNickname_idem r.nickname, hn, ?_⟩
            exact clampScore_idem r.score
      · exact sanitizeItems_mem_good now rs (i + 1) e htail

theorem sanitizeLeaderboard_mem_good (now : Int) (data : RawData) (e : Entry)
    (h : e ∈ sanitizeLeaderboard now data) :
    normalizeNickname e.nickname = e.nickname ∧ e.nickname ≠ "" ∧
      clampScore (some e.score) = e.score := by
  cases data with
  | notArray => simp [sanitizeLeaderboard] at h
  | arr items =>
    simp only [sanitizeLeaderboard] at h
    have h1 : e ∈ (sanitizeItems now 0 items).insertionSort rankLe :=
      (List.take_sublist 100 _).subset h
    rw [List.mem_insertionSort] at h1
    exact sanitizeItems_mem_good now items 0 e h1

theorem sanitizeLeaderboard_sorted (now : Int) (data : RawData) :
    List.Sorted rankLe (sanitizeLeaderboard now data) := by
  cases data with
  | notArray => simp [sanitizeLeaderboard]
  | arr items =>
    simp only [sanitizeLeaderboard]
    exact (List.sorted_insertionSort rankLe _).sublist (List.take_sublist 100 _)

theorem sanitizeLeaderboard_len (now : Int) (data : RawData) :
    (sanitizeLeaderboard now data).length ≤ 100 := by
  cases data with
  | notArray => simp [sanitizeLeaderboard]
  | arr items =>
    simp only [sanitizeLeaderboard]
    exact List.length_take_le 100 _

theorem sanitizeLeaderboard_fix (now : Int) (l : List Entry)
    (hg : ∀ e ∈ l, normalizeNickname e.nickname = e.nickname ∧ e.nickname ≠ "" ∧
      clampScore (some e.score) = e.score)
    (hs : List.Sorted rankLe l) (hlen : l.length ≤ 100) :
    sanitizeLeaderboard now (.arr (l.map toRaw)) = l := by
  simp only [sanitizeLeaderboard]
  rw [sanitizeItems_map_toRaw now l 0 (fun e he => (hg e he).1)]
  have hfil : l.filter (fun e => !(e.nickname == "")) = l :=
    List.filter_eq_self.mpr (fun e he => by simp [(hg e he).2.1])
  rw [hfil]
  have hmap : l.map (fun e => { e with score := clampScore (some e.score) }) = l := by
    have hcg : l.map (fun e => { e with score := clampScore (some e.score) }) = l.map id :=
      List.map_congr_left (fun e he => by rw [(hg e he).2.2]; rfl)
    rw [hcg, List.map_id]
  rw [hmap, List.Sorted.insertionSort_eq hs]
  exact List.take_of_length_le hlen

/-- C4: `sanitizeLeaderboard` is idempotent — re-sanitizing an already
sanitized leaderboard (viewed as the raw array it is at runtime, at any
later time) returns it unchanged — and it is total: it is a plain
function defined on every raw value, returning `[]` on a non-array
instead of failing. -/
theorem claim_sanitize_idempotent (now now2 : Int) (data : RawData) :
    sanitizeLeaderboard now2 (.arr ((sanitizeLeaderboard now data).map toRaw)) =
      sanitizeLeaderboard now data ∧
    sanitizeLeaderboard now RawData.notArray = [] :=
  ⟨sanitizeLeaderboard_fix now2 _ (fun e he => sanitizeLeaderboard_mem_good now data e he)
      (sanitizeLeaderboard_sorted now data) (sanitizeLeaderboard_len now data),
   rfl⟩

/-! ### Leaderboard merge lemmas -/

/-- A leaderboard in the shape `sanitizeLeaderboard` guarantees: applying
the sanitizer to it (viewed as raw data) returns it unchanged. -/
def Clean (l : List Entry) : Prop :=
  sanitizeLeaderboard 0 (.arr (l.map toRaw)) = l

instance (l : List Entry) : Decidable (Clean l) := by
  unfold Clean
  infer_instance

theorem Clean_good {l : List Entry} (h : Clean l) :
    ∀ e ∈ l, normalizeNickname e.nickname = e.nickname ∧ e.nickname ≠ "" ∧
      clampScore (some e.score) = e.score := by
  intro e he
  rw [← h] at he
  exact sanitizeLeaderboard_mem_good 0 _ e he

theorem Clean_sorted {l : List Entry} (h : Clean l) : List.Sorted rankLe l := by
  rw [← h]
  exact sanitizeLeaderboard_sorted 0 _

theorem Clean_len {l : List Entry} (h : Clean l) : l.length ≤ 100 := by
  conv_lhs => rw [← h]
  exact sanitizeLeaderboard_len 0 _

theorem Clean_sanitize_fix (now : Int) {l : List Entry} (h : Clean l) :
    sanitizeLeaderboard now (.arr (l.map toRaw)) = l :=
  sanitizeLeaderboard_fix now l (Clean_good h) (Clean_sorted h) (Clean_len h)

theorem findIndex_some (p : α → Bool) : ∀ (l : List α) (i : Nat), findIndex p l = some i →
    i < l.length ∧ ∀ d, p (l.getD i d) = true
  | [], _, h => by simp [findIndex] at h
  | a :: t, i, h => by
    simp only [findIndex] at h
    by_cases hp : p a = true
    · rw [if_pos hp] at h
      injection h with h
      rw [← h]
      exact ⟨by simp, fun d => by simpa using hp⟩
    · rw [if_neg hp] at h
      cases hft : findIndex p t with
      | none =>
        rw [hft] at h
        cases h
      | some j =>
        rw [hft] at h
        injection h with h
        have hj := findIndex_some p t j hft
        rw [← h]
        exact ⟨by simpa using Nat.succ_lt_succ hj.1, fun d => by simpa using hj.2 d⟩

theorem findIndex_none (p : α → Bool) : ∀ (l : List α), findIndex p l = none →
    ∀ a ∈ l, p a = false
  | [], _, a, ha => by simp at ha
  | b :: t, h, a, ha => by
    simp only [findIndex] at h
    by_cases hp : p b = true
    · rw [if_pos hp] at h
      cases h
    · rw [if_neg hp] at h
      rcases List.mem_cons.mp ha with rfl | hat
      · simpa using hp
      · cases hft : findIndex p t with
        | none => exact findIndex_none p t hft a hat
        | some j =>
          rw [hft] at h
          cases h

theorem getD_mem (l : List α) (i : Nat) (d : α) (h : i < l.length) : l.getD i d ∈ l := by
  simp only [List.getD_eq_getElem?_getD, List.getElem?_eq_getElem h, Option.getD_some]
  exact List.getElem_mem h

/-- The case-insensitive key of each entry, in order. -/
def keyList (l : List Entry) : List String :=
  l.map fun e => lowerStr e.nickname

/-- At most one entry per distinct case-insensitive nickname. -/
def uniqueKeys (l : List Entry) : Prop :=
  (keyList l).Nodup

instance (l : List Entry) : Decidable (uniqueKeys l) := by
  unfold uniqueKeys
  infer_instance

theorem clampFix_bounds {v : Int} (h : clampScore (some v) = v) : 0 ≤ v ∧ v ≤ 100 := by
  simp only [clampScore, MAX_STAGE] at h
  omega

/-- After sanitizing a list of entries whose nicknames are already
normalized and (for the permutation view) non-empty and at most 100 long,
the result is a permutation of the input with each score clamped. -/
theorem sanitize_perm_scoreFix (now : Int) (nx : List Entry)
    (hg : ∀ x ∈ nx, normalizeNickname x.nickname = x.nickname ∧ x.nickname ≠ "")
    (hlen : nx.length ≤ 100) :
    List.Perm (sanitizeLeaderboard now (.arr (nx.map toRaw)))
      (nx.map (fun e => { e with score := clampScore (some e.score) })) := by
  simp only [sanitizeLeaderboard]
  rw [sanitizeItems_map_toRaw now nx 0 (fun x hx => (hg x hx).1)]
  rw [List.filter_eq_self.mpr (fun x hx => by simp [(hg x hx).2])]
  rw [List.take_of_length_le (by rw [List.length_insertionSort, List.length_map]; exact hlen)]
  exact List.perm_insertionSort rankLe _

theorem sanitize_uniqueKeys (now : Int) (nx : List Entry)
    (hg : ∀ x ∈ nx, normalizeNickname x.nickname = x.nickname)
    (hu : uniqueKeys nx) :
    uniqueKeys (sanitizeLeaderboard now (.arr (nx.map toRaw))) := by
  simp only [sanitizeLeaderboard]
  rw [sanitizeItems_map_toRaw now nx 0 hg]
  have hkey : keyList ((nx.filter (fun e => !(e.nickname == ""))).map
      (fun e => { e with score := clampScore (some e.score) })) =
      keyList (nx.filter (fun e => !(e.nickname == ""))) := by
    simp only [keyList, List.map_map]
    rfl
  have hfil : uniqueKeys (nx.filter (fun e => !(e.nickname == ""))) := by
    unfold uniqueKeys keyList at hu ⊢
    exact hu.sublist ((List.filter_sublist nx).map _)
  have hY : uniqueKeys ((nx.filter (fun e => !(e.nickname == ""))).map
      (fun e => { e with score := clampScore (some e.score) })) := by
    unfold uniqueKeys at hfil ⊢
    rw [hkey]
    exact hfil
  have hsort : uniqueKeys (((nx.filter (fun e => !(e.nickname == ""))).map
      (fun e => { e with score := clampScore (some e.score) })).insertionSort rankLe) := by
    unfold uniqueKeys keyList at hY ⊢
    exact ((List.perm_insertionSort rankLe _).map _).nodup_iff.mpr hY
  unfold uniqueKeys keyList at hsort ⊢
  exact hsort.sublist ((List.take_sublist 100 _).map _)

/-- Every branch of `buildUpdatedLeaderboard` ends in `sanitizeLeaderboard`,
so its result is always sorted and capped at 100 entries. -/
theorem buildUpdated_sorted_len (now : Int) (current : List Entry)
    (nickname : String) (score : Int) :
    List.Sorted rankLe (buildUpdatedLeaderboard now current nickname score) ∧
    (buildUpdatedLeaderboard now current nickname score).length ≤ 100 := by
  cases hfi : findIndex
      (fun item => lowerStr item.nickname == lowerStr (normalizeNickname nickname)) current with
  | some i =>
    simp only [buildUpdatedLeaderboard, hfi]
    exact ⟨sanitizeLeaderboard_sorted now _, sanitizeLeaderboard_len now _⟩
  | none =>
    simp only [buildUpdatedLeaderboard, hfi]
    exact ⟨sanitizeLeaderboard_sorted now _, sanitizeLeaderboard_len now _⟩

theorem rankLe_iff (a b : Entry) :
    rankLe a b ↔ (b.score < a.score ∨ (a.score = b.score ∧ a.playedAt ≤ b.playedAt)) := by
  unfold rankLe entryCmp
  split_ifs with h <;> omega

/-! ### Claim theorems: leaderboard -/

/-- C3, counterexample: the claim quantifies over every leaderboard list,
but on the (unsanitized) stored list `[{Fox, 150, 5}]`, merging score 7
for "fox" — which must not replace anything since 7 < 150 — still changes
the stored entry's score, because the final sanitization clamps 150 down
to 100.  So "otherwise leaves that entry's score unchanged" and "never
decreases a player's best recorded score" are false for arbitrary input
lists. -/
theorem claim_mergeScore_policy_counterexample :
    (7 : Int) < 150 ∧
    buildUpdatedLeaderboard 0 [⟨"Fox", 150, 5⟩] "fox" 7 = [⟨"Fox", 100, 5⟩] := by
  constructor
  · decide
  · decide

/-- C3, amended: restricted to sanitized leaderboards (`Clean`, the shape
every stored board actually has) with fewer than 100 entries: when the
case-insensitively matched entry's stored score is at least the new
score, the merge returns the whole leaderboard unchanged (in particular
merging 7 against a stored 10 leaves the entry at 10); and no player's
best recorded score ever decreases — every entry keeps an entry with the
same key and at least its score in the result.  (On a full board of 100
entries the cap may evict the lowest entry, which is why the claim is
restricted to boards with room; the clamp counterexample is why it is
restricted to sanitized boards.) -/
theorem claim_mergeScore_policy (now : Int) (current : List Entry)
    (nickname : String) (score : Int)
    (hClean : Clean current) (hLen : current.length < 100) :
    (∀ i, findIndex
        (fun item => lowerStr item.nickname == lowerStr (normalizeNickname nickname)) current =
          some i →
      score ≤ (current.getD i default).score →
      buildUpdatedLeaderboard now current nickname score = current) ∧
    (∀ e ∈ current, ∃ u ∈ buildUpdatedLeaderboard now current nickname score,
      lowerStr u.nickname = lowerStr e.nickname ∧ e.score ≤ u.score) := by
  constructor
  · intro i hfi hle
    simp only [buildUpdatedLeaderboard, hfi]
    rw [if_neg (not_lt.mpr hle)]
    exact Clean_sanitize_fix now hClean
  · intro e he
    cases hfi : findIndex
        (fun item => lowerStr item.nickname == lowerStr (normalizeNickname nickname)) current with
    | none =>
      simp only [buildUpdatedLeaderboard, hfi]
      have hfix : current.map (fun x => { x with score := clampScore (some x.score) }) =
          current := by
        have hcg : current.map (fun x => { x with score := clampScore (some x.score) }) =
            current.map id :=
          List.map_congr_left (fun x hx => by rw [(Clean_good hClean x hx).2.2]; rfl)
        rw [hcg, List.map_id]
      have hnormAll : ∀ x ∈ current ++
          [({ nickname := normalizeNickname nickname, score := score, playedAt := now } :
            Entry)],
          normalizeNickname x.nickname = x.nickname := by
        intro x hx
        rcases List.mem_append.mp hx with hx | hx
        · exact (Clean_good hClean x hx).1
        · rw [List.mem_singleton] at hx
          rw [hx]
          exact normalizeNickname_idem nickname
      by_cases hempty : normalizeNickname nickname = ""
      · -- the fresh entry has an empty nickname and is dropped again
        have hres : sanitizeLeaderboard now
            (.arr ((current ++
              [({ nickname := normalizeNickname nickname, score := score, playedAt := now } :
                Entry)]).map toRaw)) = current := by
          simp only [sanitizeLeaderboard]
          rw [sanitizeItems_map_toRaw now _ 0 hnormAll]
          rw [List.filter_append]
          rw [List.filter_eq_self.mpr
            (fun x hx => by simp [(Clean_good hClean x hx).2.1])]
          rw [show List.filter (fun e => !(e.nickname == ""))
              [({ nickname := normalizeNickname nickname, score := score, playedAt := now } :
                Entry)] = [] from by simp [hempty]]
          rw [List.append_nil, hfix, List.Sorted.insertionSort_eq (Clean_sorted hClean)]
          exact List.take_of_length_le (Clean_len hClean)
        rw [hres]
        exact ⟨e, he, rfl, le_refl _⟩
      · have hg : ∀ x ∈ current ++
            [({ nickname := normalizeNickname nickname, score := score, playedAt := now } :
              Entry)],
            normalizeNickname x.nickname = x.nickname ∧ x.nickname ≠ "" := by
          intro x hx
          rcases List.mem_append.mp hx with hx | hx
          · exact ⟨(Clean_good hClean x hx).1, (Clean_good hClean x hx).2.1⟩
          · rw [List.mem_singleton] at hx
            rw [hx]
            exact ⟨normalizeNickname_idem nickname, hempty⟩
        have hperm := sanitize_perm_scoreFix now
          (current ++
            [({ nickname := normalizeNickname nickname, score := score, playedAt := now } :
              Entry)]) hg (by simp; omega)
        refine ⟨e, ?_, rfl, le_refl _⟩
        rw [hperm.mem_iff]
        rw [List.map_append]
        apply List.mem_append_left
        rw [hfix]
        exact he
    | some i =>
      have hi := (findIndex_some _ current i hfi).1
      by_cases hlt : (current.getD i default).score < score
      · simp only [buildUpdatedLeaderboard, hfi]
        rw [if_pos hlt]
        have hexist_mem : current.getD i default ∈ current := getD_mem current i default hi
        have hg : ∀ x ∈ current.set i
            { current.getD i default with score := score, playedAt := now },
            normalizeNickname x.nickname = x.nickname ∧ x.nickname ≠ "" := by
          intro x hx
          rcases List.mem_or_eq_of_mem_set hx with hx | hx
          · exact ⟨(Clean_good hClean x hx).1, (Clean_good hClean x hx).2.1⟩
          · rw [hx]
            exact ⟨(Clean_good hClean _ hexist_mem).1, (Clean_good hClean _ hexist_mem).2.1⟩
        have hperm := sanitize_perm_scoreFix now
          (current.set i { current.getD i default with score := score, playedAt := now }) hg
          (by rw [List.length_set]; omega)
        obtain ⟨j, hj, hej⟩ := List.mem_iff_getElem.mp he
        by_cases hji : j = i
        · -- the matched entry itself: it is replaced by a strictly larger score
          refine ⟨{ current.getD i default with
              score := clampScore (some score), playedAt := now }, ?_, ?_, ?_⟩
          · rw [hperm.mem_iff]
            rw [List.mem_iff_getElem]
            refine ⟨i, by simpa using hi, ?_⟩
            rw [List.getElem_map, List.getElem_set_self (by simpa using hi)]
          · subst hji
            have : current.getD j default = e := by
              simp only [List.getD_eq_getElem?_getD, List.getElem?_eq_getElem hj,
                Option.getD_some, hej]
            rw [this]
          · subst hji
            have hgd : current.getD j default = e := by
              simp only [List.getD_eq_getElem?_getD, List.getElem?_eq_getElem hj,
                Option.getD_some, hej]
            have hb := clampFix_bounds (Clean_good hClean e he).2.2
            rw [hgd] at hlt
            simp only [clampScore, MAX_STAGE]
            omega
        · refine ⟨e, ?_, rfl, le_refl _⟩
          rw [hperm.mem_iff]
          rw [List.mem_iff_getElem]
          refine ⟨j, by simpa using hj, ?_⟩
          rw [List.getElem_map, List.getElem_set_ne (Ne.symm hji)]
          have hgood := (Clean_good hClean e he).2.2
          rw [hej, hgood]
      · simp only [buildUpdatedLeaderboard, hfi]
        rw [if_neg hlt]
        rw [Clean_sanitize_fix now hClean]
        exact ⟨e, he, rfl, le_refl _⟩

/-- Witness for C3's amended theorem: the spec's own scenario — merging
score 7 for existing nickname "Fox" whose stored score is 10 leaves the
leaderboard (and in particular the stored entry) unchanged at 10. -/
theorem claim_mergeScore_policy_witness :
    buildUpdatedLeaderboard 99 [⟨"Fox", 10, 0⟩] "Fox" 7 = [⟨"Fox", 10, 0⟩] :=
  (claim_mergeScore_policy 99 [⟨"Fox", 10, 0⟩] "Fox" 7 (by decide) (by decide)).1 0
    (by decide) (by decide)

/-- C5, counterexample: the claim quantifies over every input list, but if
the input already violates case-insensitive uniqueness ("Fox" and "fox"
as separate entries), a merge does not deduplicate it: the merged result
still has two entries with the key "fox". -/
theorem claim_merge_invariants_counterexample :
    ¬ uniqueKeys (buildUpdatedLeaderboard 0 [⟨"Fox", 5, 1⟩, ⟨"fox", 3, 2⟩] "Bob" 4) := by
  decide

/-- C5, amended: after every merge the result is sorted by score
descending with ties broken by earlier `playedAt`, and has at most 100
entries — for every input; and it has at most one entry per distinct
case-insensitive nickname provided the input list itself already
satisfies that uniqueness (with its nicknames in normalized form, the
shape every stored board has). -/
theorem claim_merge_invariants (now : Int) (current : List Entry)
    (nickname : String) (score : Int) :
    List.Pairwise (fun a b => b.score < a.score ∨ (a.score = b.score ∧ a.playedAt ≤ b.playedAt))
      (buildUpdatedLeaderboard now current nickname score) ∧
    (buildUpdatedLeaderboard now current nickname score).length ≤ 100 ∧
    ((∀ e ∈ current, normalizeNickname e.nickname = e.nickname) → uniqueKeys current →
      uniqueKeys (buildUpdatedLeaderboard now current nickname score)) := by
  refine ⟨?_, (buildUpdated_sorted_len now current nickname score).2, ?_⟩
  · exact ((buildUpdated_sorted_len now current nickname score).1).imp
      (fun hab => (rankLe_iff _ _).mp hab)
  · intro hnorm huniq
    cases hfi : findIndex
        (fun item => lowerStr item.nickname == lowerStr (normalizeNickname nickname)) current with
    | none =>
      simp only [buildUpdatedLeaderboard, hfi]
      apply sanitize_uniqueKeys
      · intro x hx
        rcases List.mem_append.mp hx with hx | hx
        · exact hnorm x hx
        · rw [List.mem_singleton] at hx
          rw [hx]
          exact normalizeNickname_idem nickname
      · unfold uniqueKeys keyList
        rw [List.map_append]
        rw [List.nodup_append]
        refine ⟨huniq, by simp, ?_⟩
        intro k hk1 hk2
        simp only [List.map_cons, List.map_nil, List.mem_singleton] at hk2
        obtain ⟨x, hx, hkx⟩ := List.mem_map.mp hk1
        have hfalse := findIndex_none _ current hfi x hx
        simp only [beq_eq_false_iff_ne, ne_eq] at hfalse
        apply hfalse
        rw [hkx, hk2]
    | some i =>
      have hi := (findIndex_some _ current i hfi).1
      have hpred := (findIndex_some _ current i hfi).2 default
      simp only [buildUpdatedLeaderboard, hfi]
      by_cases hlt : (current.getD i default).score < score
      · rw [if_pos hlt]
        apply sanitize_uniqueKeys
        · intro x hx
          rcases List.mem_or_eq_of_mem_set hx with hx | hx
          · exact hnorm x hx
          · rw [hx]
            exact hnorm (current.getD i default) (getD_mem current i default hi)
        · unfold uniqueKeys keyList
          rw [List.map_set]
          have hkeep : lowerStr ({ current.getD i default with
              score := score, playedAt := now } : Entry).nickname =
              (current.map fun e => lowerStr e.nickname).getD i
                (lowerStr (default : Entry).nickname) := by
            rw [getD_map]
          rw [hkeep, set_getD_self _ i _ (by simpa using hi)]
          exact huniq
      · rw [if_neg hlt]
        apply sanitize_uniqueKeys
        · exact hnorm
        · exact huniq

/-- Witness for C5's amended theorem on a concrete sanitized board. -/
theorem claim_merge_invariants_witness :
    List.Pairwise (fun a b => b.score < a.score ∨ (a.score = b.score ∧ a.playedAt ≤ b.playedAt))
      (buildUpdatedLeaderboard 7 [⟨"Fox", 10, 0⟩] "Bob" 4) ∧
    (buildUpdatedLeaderboard 7 [⟨"Fox", 10, 0⟩] "Bob" 4).length ≤ 100 ∧
    uniqueKeys (buildUpdatedLeaderboard 7 [⟨"Fox", 10, 0⟩] "Bob" 4) :=
  ⟨(claim_merge_invariants 7 [⟨"Fox", 10, 0⟩] "Bob" 4).1,
   (claim_merge_invariants 7 [⟨"Fox", 10, 0⟩] "Bob" 4).2.1,
   (claim_merge_invariants 7 [⟨"Fox", 10, 0⟩] "Bob" 4).2.2 (by decide) (by decide)⟩

/-! ### Claim theorems: round state machine -/

/-- C2: `handleDogPick` is a no-op outside the `guessing` phase; inside
it, it records the picked dog and sets the outcome to success exactly
when the picked dog is the target; and a correct pick at
`stage = MAX_STAGE` moves to the terminal success phase (`ranking`, with
the final score recorded as `MAX_STAGE`), not to `result`. -/
theorem claim_pickDog (now : Int) (dogId : Nat) (s : GameState) :
    (s.phase ≠ Phase.guessing → handleDogPick now dogId s = s) ∧
    (s.phase = Phase.guessing →
      (handleDogPick now dogId s).selectedDogId = some dogId ∧
      ((handleDogPick now dogId s).result = some Outcome.success ↔
        some dogId = s.targetDogId) ∧
      (some dogId = s.targetDogId → s.stage = MAX_STAGE →
        (handleDogPick now dogId s).phase = Phase.ranking ∧
        (handleDogPick now dogId s).phase ≠ Phase.result ∧
        (handleDogPick now dogId s).lastScore = some MAX_STAGE)) := by
  constructor
  · intro h
    simp only [handleDogPick, if_pos h]
  · intro h
    have hng : ¬ (s.phase ≠ Phase.guessing) := by simp [h]
    by_cases hc : some dogId = s.targetDogId
    · have hdec : decide (some dogId = s.targetDogId) = true := decide_eq_true hc
      by_cases hstage : s.stage = MAX_STAGE
      · simp only [handleDogPick, if_neg hng, hdec]
        rw [if_pos (show True ∧ s.stage = MAX_STAGE from ⟨trivial, hstage⟩)]
        refine ⟨rfl, by simp [finishGame, clearTimers, hc],
          fun _ _ => ⟨rfl, (by decide : Phase.ranking ≠ Phase.result), ?_⟩⟩
        show some (clampScore (some MAX_STAGE)) = some MAX_STAGE
        decide
      · simp only [handleDogPick, if_neg hng, hdec]
        rw [if_neg (by simp [hstage]), if_neg (by simp)]
        exact ⟨rfl, by simp [hc], fun _ hst => absurd hst hstage⟩
    · have hdec : decide (some dogId = s.targetDogId) = false :=
        decide_eq_false hc
      simp only [handleDogPick, if_neg hng, hdec]
      rw [if_pos trivial]
      exact ⟨rfl, by simp [finishGame, clearTimers, hc], fun hcc => absurd hcc hc⟩

theorem handlePrimaryAction_ranking (k : Nat) (t : GameState)
    (ht : t.phase = Phase.ranking) : handlePrimaryAction k t = t := by
  simp only [handlePrimaryAction, ht]
  rw [if_neg (by simp), if_neg (by simp)]

theorem handleStartFromRanking_restart (k : Nat) (t : GameState) (hn : t.nickname ≠ "") :
    (handleStartFromRanking k t).stage = 1 ∧
    (handleStartFromRanking k t).phase = Phase.feeding := by
  simp only [handleStartFromRanking]
  rw [if_neg hn]
  constructor
  · show clampStage (some 1) = 1
    decide
  · rfl

/-- C10: in App.jsx, an incorrect pick during `guessing` immediately ends
the session: `finishGame(stage - 1)` runs, so the final recorded score is
`clampScore(stage - 1)` merged into the leaderboard under the current
nickname, and the phase becomes `ranking`; a wrong pick at stage 1
records score 0; and no retry of the same stage is possible — from the
resulting state the primary action is a no-op and the only restart,
`handleStartFromRanking`, begins again at stage 1. -/
theorem claim_wrong_pick_ends_game (now : Int) (dogId : Nat) (s : GameState)
    (hph : s.phase = Phase.guessing) (hwrong : some dogId ≠ s.targetDogId) :
    (handleDogPick now dogId s).phase = Phase.ranking ∧
    (handleDogPick now dogId s).lastScore = some (clampScore (some (s.stage - 1))) ∧
    (handleDogPick now dogId s).localLeaderboard =
      buildUpdatedLeaderboard now s.localLeaderboard s.nickname
        (clampScore (some (s.stage - 1))) ∧
    (handleDogPick now dogId s).displayLeaderboard =
      (handleDogPick now dogId s).localLeaderboard ∧
    (handleDogPick now dogId s).result = some Outcome.fail ∧
    (s.stage = 1 → (handleDogPick now dogId s).lastScore = some 0) ∧
    (∀ k, handlePrimaryAction k (handleDogPick now dogId s) = handleDogPick now dogId s) ∧
    (s.nickname ≠ "" → ∀ k,
      (handleStartFromRanking k (handleDogPick now dogId s)).stage = 1 ∧
      (handleStartFromRanking k (handleDogPick now dogId s)).phase = Phase.feeding) := by
  have hng : ¬ (s.phase ≠ Phase.guessing) := by simp [hph]
  have hdec : decide (some dogId = s.targetDogId) = false := decide_eq_false hwrong
  have hred : handleDogPick now dogId s = finishGame now (s.stage - 1)
      { s with selectedDogId := some dogId, result := some Outcome.fail } := by
    simp only [handleDogPick, if_neg hng, hdec]
    rw [if_neg (by simp : ¬ (false = true ∧ s.stage = MAX_STAGE)), if_pos trivial]
    rfl
  rw [hred]
  refine ⟨rfl, rfl, rfl, rfl, rfl, ?_, ?_, ?_⟩
  · intro hst
    show some (clampScore (some (s.stage - 1))) = some 0
    rw [hst]
    decide
  · intro k
    exact handlePrimaryAction_ranking k _ rfl
  · intro hn k
    exact handleStartFromRanking_restart k _ hn

/-- A concrete in-round state (stage 1, three dogs, target dog 2, phase
`guessing`) used to witness the state machine claims. -/
def exGuessState : GameState where
  stage := 1
  dogs := createDogs 3
  targetDogId := some 2
  phase := Phase.guessing
  result := none
  selectedDogId := none
  shuffleProgress := 100
  nickname := "Fox"
  pendingStartAfterNickname := false
  showNicknameSetup := false
  localLeaderboard := []
  displayLeaderboard := []
  isSharedRanking := false
  lastScore := none
  shareFeedback := ""
  feedingTimeout := false
  shuffleTimeout := false
  shuffleIntervalTimer := false
  progressIntervalTimer := false

/-- The same state at the final stage. -/
def exFinalState : GameState :=
  { exGuessState with stage := 100 }

/-- The same state during the shuffle (picking must be a no-op). -/
def exShufflingState : GameState :=
  { exGuessState with phase := Phase.shuffling }

/-- Witness for C2: picking during `shuffling` is a no-op, and a correct
final-stage pick records the selection, a success outcome, and the
terminal `ranking` phase with score 100. -/
theorem claim_pickDog_witness :
    handleDogPick 0 1 exShufflingState = exShufflingState ∧
    (handleDogPick 5 2 exFinalState).selectedDogId = some 2 ∧
    ((handleDogPick 5 2 exFinalState).result = some Outcome.success ↔
      some 2 = exFinalState.targetDogId) ∧
    ((handleDogPick 5 2 exFinalState).phase = Phase.ranking ∧
      (handleDogPick 5 2 exFinalState).phase ≠ Phase.result ∧
      (handleDogPick 5 2 exFinalState).lastScore = some MAX_STAGE) :=
  ⟨(claim_pickDog 0 1 exShufflingState).1 (by decide),
   ((claim_pickDog 5 2 exFinalState).2 (by decide)).1,
   ((claim_pickDog 5 2 exFinalState).2 (by decide)).2.1,
   ((claim_pickDog 5 2 exFinalState).2 (by decide)).2.2 (by decide) (by decide)⟩

/-- Witness for C10: a wrong pick at stage 1 ends the session in the
`ranking` phase with recorded score 0, the primary action is then a
no-op, and the restart goes back to stage 1. -/
theorem claim_wrong_pick_ends_game_witness :
    (handleDogPick 5 1 exGuessState).phase = Phase.ranking ∧
    (handleDogPick 5 1 exGuessState).lastScore = some 0 ∧
    (handleDogPick 5 1 exGuessState).localLeaderboard =
      buildUpdatedLeaderboard 5 exGuessState.localLeaderboard exGuessState.nickname
        (clampScore (some (exGuessState.stage - 1))) ∧
    handlePrimaryAction 0 (handleDogPick 5 1 exGuessState) = handleDogPick 5 1 exGuessState ∧
    (handleStartFromRanking 0 (handleDogPick 5 1 exGuessState)).stage = 1 ∧
    (handleStartFromRanking 0 (handleDogPick 5 1 exGuessState)).phase = Phase.feeding := by
  have h := claim_wrong_pick_ends_game 5 1 exGuessState (by decide) (by decide)
  exact ⟨h.1, h.2.2.2.2.2.1 rfl, h.2.2.1, h.2.2.2.2.2.2.1 0,
    (h.2.2.2.2.2.2.2 (by decide) 0).1, (h.2.2.2.2.2.2.2 (by decide) 0).2⟩

end CatchingPuppy
